import Mathlib

/-! gopl ch5: a verification development

Shallow embedding of `ch5/findlinks3/main.go` (the worklist traversal
`breadthFirst` and the adapter `crawl`), of `ch5/outline2point5/main.go` (the tree
walk `forEachNode`) and of `ch5/squares/main.go` (the closures of `squares`).

Modelling conventions.

* A Go `func(item string) []string` may have effects and may answer differently
  from one call to the next, so a discovery function is embedded as a state
  transformer `String → σ → List String × σ` over an arbitrary environment `σ`.
  A discovery function without effects is the special case `liftPure g`.
* `map[string]bool` is embedded as a total function `String → Bool`; a key that
  was never written reads as `false`, the Go zero value.
* `breadthFirst` returns nothing.  What can be observed of a run is the sequence
  of calls made to `f`; the embedding records it as `trace`, the list of
  (argument, result) pairs in call order.
* The outer `for len(worklist) > 0` loop need not terminate, so it is embedded
  twice: `runRounds` runs at most `n` rounds (a finite prefix of the run) and
  `breadthFirstLoop` takes fuel and answers `none` when the fuel is exhausted
  before the worklist is empty.
-/

namespace Gopl

/-! ## Definitions -/

/-- The discovery function of `breadthFirst`, with its effects made explicit. -/
abbrev Discover (σ : Type) := String → σ → List String × σ

/-- A discovery function without effects. -/
def liftPure (g : String → List String) : Discover Unit :=
  fun item u => (g item, u)

/-- The local variables of `breadthFirst` (`seen`, `worklist`), the environment
of `f`, and the record of the calls made to `f` so far. -/
structure BFState (σ : Type) where
  seen : String → Bool
  worklist : List String
  trace : List (String × List String)
  env : σ

/-- The sequence of items on which `f` has been invoked, oldest first. -/
def BFState.calls {σ : Type} (st : BFState σ) : List String :=
  st.trace.map Prod.fst

/-- One iteration of the inner loop `for _, item := range items`:
`if !seen[item] { seen[item] = true; worklist = append(worklist, f(item)...) }`. -/
def visit {σ : Type} (f : Discover σ) (st : BFState σ) (item : String) : BFState σ :=
  if st.seen item = false then
    let r := f item st.env
    { seen := fun k => if k = item then true else st.seen k
      worklist := st.worklist ++ r.1
      trace := st.trace ++ [(item, r.1)]
      env := r.2 }
  else st

/-- One iteration of the outer loop (a round):
`items := worklist; worklist = nil; for _, item := range items { ... }`. -/
def round {σ : Type} (f : Discover σ) (st : BFState σ) : BFState σ :=
  st.worklist.foldl (visit f) { st with worklist := [] }

/-- The state after at most `n` rounds of `for len(worklist) > 0 { ... }`: a
finite prefix of the run, which stops early when the worklist is empty. -/
def runRounds {σ : Type} (f : Discover σ) : Nat → BFState σ → BFState σ
  | 0, st => st
  | n + 1, st => if st.worklist.length > 0 then runRounds f n (round f st) else st

/-- The loop `for len(worklist) > 0 { ... }` with fuel: `some` of the final state
when the loop exits within `fuel` rounds, `none` when the fuel runs out. -/
def breadthFirstLoop {σ : Type} (f : Discover σ) : Nat → BFState σ → Option (BFState σ)
  | 0, st => if st.worklist.length > 0 then none else some st
  | fuel + 1, st =>
    if st.worklist.length > 0 then breadthFirstLoop f fuel (round f st) else some st

/-- The state on entry to the loop: `seen := make(map[string]bool)`, no call made. -/
def initState {σ : Type} (worklist : List String) (env : σ) : BFState σ :=
  { seen := fun _ => false, worklist := worklist, trace := [], env := env }

/-- The function `breadthFirst(f, worklist)`, run in environment `env` with `fuel`. -/
def breadthFirst {σ : Type} (f : Discover σ) (worklist : List String) (env : σ)
    (fuel : Nat) : Option (BFState σ) :=
  breadthFirstLoop f fuel (initState worklist env)

/-- The state of `breadthFirst(f, worklist)` after at most `n` rounds. -/
def stateAfter {σ : Type} (f : Discover σ) (worklist : List String) (env : σ)
    (n : Nat) : BFState σ :=
  runRounds f n (initState worklist env)

/-- The items on which `f` is invoked during round `r` (rounds counted from 0):
the calls recorded after `r + 1` rounds without those recorded after `r`. -/
def dispatched {σ : Type} (f : Discover σ) (worklist : List String) (env : σ)
    (r : Nat) : List String :=
  ((stateAfter f worklist env (r + 1)).calls).drop (stateAfter f worklist env r).calls.length

/-! ### Specification vocabulary -/

/-- The list with every occurrence of an item after its first removed. -/
def dedupFirst : List String → List String
  | [] => []
  | x :: xs => x :: (dedupFirst xs).filter (fun y => decide (y ≠ x))

/-- Reachable from the seeds through `g`: a seed, or an element of `g y` for a
reachable `y`. -/
inductive Reachable (g : String → List String) (seeds : List String) : String → Prop
  | seed {x : String} : x ∈ seeds → Reachable g seeds x
  | step {x y : String} : Reachable g seeds y → x ∈ g y → Reachable g seeds x

/-- There is a chain of exactly `k` discovery hops from some seed to the item. -/
def ReachIn (g : String → List String) (seeds : List String) : Nat → String → Prop
  | 0, x => x ∈ seeds
  | k + 1, x => ∃ y, ReachIn g seeds k y ∧ x ∈ g y

/-- The item has depth `k`: `k` is the minimum number of discovery hops from any
seed. -/
def HasDepth (g : String → List String) (seeds : List String) (x : String) (k : Nat) : Prop :=
  ReachIn g seeds k x ∧ ∀ j, j < k → ¬ ReachIn g seeds j x

/-- Loop invariant at the round boundaries: no item was dispatched twice, and
`seen` holds exactly the items dispatched so far. -/
def SeenExact {σ : Type} (st : BFState σ) : Prop :=
  st.calls.Nodup ∧ ∀ y, st.seen y = true ↔ y ∈ st.calls

/-- Loop invariant at the boundary before round `r`, for a discovery function
without effects: `seen` holds the items of depth below `r`, every item of the
worklist is `r` hops away from a seed, and every item of depth `r` is on the
worklist. -/
def LevelInv {σ : Type} (g : String → List String) (seeds : List String) (r : Nat)
    (st : BFState σ) : Prop :=
  (∀ y, st.seen y = true ↔ ∃ j, j < r ∧ HasDepth g seeds y j) ∧
  (∀ y, y ∈ st.worklist → ReachIn g seeds r y) ∧
  (∀ y, HasDepth g seeds y r → y ∈ st.worklist)

/-- The discovery function `f` made to fail at `b`: it agrees with `g` except that
the call on `b` yields no item. -/
def failAt (g : String → List String) (b : String) : String → List String :=
  fun item => if item = b then [] else g item

/-- What `crawl` writes: the lines of `fmt.Println` and the errors given to
`log.Print`. -/
structure Output where
  stdout : List String
  log : List String

/-- The function `crawl(url)`.  The package `links` is not part of the sources at
hand, so `links.Extract` is a parameter: `Extract url` is the pair `(list, err)` it
returns, with `none` for a nil error and `some e` for the error `e`. -/
def crawl (Extract : String → List String × Option String) : Discover Output :=
  fun url out =>
    let out1 : Output := { out with stdout := out.stdout ++ [url] }
    let r := Extract url
    let out2 : Output :=
      match r.2 with
      | some e => { out1 with log := out1.log ++ [e] }
      | none => out1
    (r.1, out2)

/-- The discovery function of the example scenario. -/
def exampleGraph : String → List String := fun item =>
  if item = "A" then ["B", "C"]
  else if item = "B" then ["A", "D"]
  else []

/-- The discovery function of the failure scenario, before the failure at `B`. -/
def failureGraph : String → List String := fun item =>
  if item = "A" then ["B", "C"]
  else if item = "B" then ["E"]
  else if item = "C" then ["D"]
  else []

/-- A link extraction that fails on every URL and still returns a list. -/
def failingExtract : String → List String × Option String :=
  fun _ => (["http://x"], some "boom")

/-- A link extraction that fails on every URL with a nil list. -/
def nilExtract : String → List String × Option String :=
  fun _ => ([], some "boom")

/-- A discovery function that returns its own argument, twice. -/
def selfLoopGraph : String → List String := fun item => [item, item]

/-! ### ch5/squares -/

/-- The value a Go `int` of 64 bits holds after an operation whose exact result is
`z`: the result wraps around in two's complement, into the range from `-2^63` to
`2^63 - 1` (`2^63 = 9223372036854775808`, `2^64 = 18446744073709551616`). -/
@[irreducible]
def wrapInt (z : Int) : Int :=
  (z + 9223372036854775808) % 18446744073709551616 - 9223372036854775808

/-- The largest Go `int` of 64 bits, `2^63 - 1`. -/
def maxInt : Int := 9223372036854775807

/-- The captured variables: one cell `x` for each closure made by `squares()`. -/
abbrev Heap := List Int

/-- The function `squares()`: `var x int` makes a fresh cell holding 0, and the
closure returned is identified by the address of its cell. -/
def squares (h : Heap) : Nat × Heap := (h.length, h ++ [0])

/-- A call of the closure whose variable is cell `c`: `x++; return x * x`. -/
def callClosure (c : Nat) (h : Heap) : Int × Heap :=
  let x := wrapInt (h.getD c 0 + 1)
  (wrapInt (x * x), h.set c x)

/-- Calls made one after the other; each result is paired with the closure called. -/
def runCalls : List Nat → Heap → List (Nat × Int)
  | [], _ => []
  | c :: cs, h => (c, (callClosure c h).1) :: runCalls cs (callClosure c h).2

/-- The function `main` of `ch5/squares`: the values it prints, in order. -/
def squaresMain : List Int :=
  let a := squares []
  let b := squares a.2
  (runCalls [a.1, a.1, a.1, b.1, b.1, b.1, a.1, b.1] b.2).map Prod.snd

/-! ### ch5/outline2point5 -/

/-- A tree of `*html.Node`: the node's data and its children in sibling order, the
chain `n.FirstChild`, then `c.NextSibling` until nil.  `forEachNode` reads no other
field. -/
inductive Node where
  | mk (Data : String) (children : List Node)

/-- The `Data` field of a node. -/
def Node.Data : Node → String
  | .mk d _ => d

/-- The children of a node, in sibling order. -/
def Node.children : Node → List Node
  | .mk _ cs => cs

/-- A Go value of type `func(n *html.Node)`: nil (`none`) or a function, whose
effects are made explicit as a transformer of a state `σ`. -/
abbrev Callback (σ : Type) := Option (Node → σ → σ)

/-- Calling a func value: calling nil panics (`none`). -/
def invoke {σ : Type} (cb : Callback σ) (n : Node) (s : σ) : Option σ :=
  match cb with
  | some p => some (p n s)
  | none => none

mutual
/-- The function `forEachNode(n, pre, post)`: `if pre != nil { pre(n) }`, the loop
over the children, `if post != nil { post(n) }`; `none` stands for a panic. -/
def forEachNode {σ : Type} (pre post : Callback σ) : Node → σ → Option σ
  | .mk d cs, s =>
    match (if pre.isSome then invoke pre (.mk d cs) s else some s) with
    | none => none
    | some s1 =>
      match forEachChild pre post cs s1 with
      | none => none
      | some s2 => if post.isSome then invoke post (.mk d cs) s2 else some s2
/-- The loop `for c := n.FirstChild; c != nil; c = c.NextSibling { forEachNode(c, pre,
post) }`, from the child at the head of the list on. -/
def forEachChild {σ : Type} (pre post : Callback σ) : List Node → σ → Option σ
  | [], s => some s
  | c :: cs, s =>
    match forEachNode pre post c s with
    | none => none
    | some s1 => forEachChild pre post cs s1
end

/-- A call made by `forEachNode`: of `pre` or of `post`, on a node. -/
inductive Event where
  | pre (n : Node)
  | post (n : Node)

/-- A `pre` callback that only records its call. -/
def recPre : Node → List Event → List Event := fun n l => l ++ [Event.pre n]

/-- A `post` callback that only records its call. -/
def recPost : Node → List Event → List Event := fun n l => l ++ [Event.post n]

/-- The node of a call of `pre`. -/
def Event.preOf : Event → Option Node
  | .pre n => some n
  | .post _ => none

/-- The node of a call of `post`. -/
def Event.postOf : Event → Option Node
  | .pre _ => none
  | .post n => some n

/-- Whether the call is a call of `pre`. -/
def Event.isPre : Event → Bool
  | .pre _ => true
  | .post _ => false

/-- Whether the call is a call of `post`. -/
def Event.isPost : Event → Bool
  | .pre _ => false
  | .post _ => true

/-- The effect of one recorded call on the state of the callbacks; a call of a nil
callback is no call and changes nothing. -/
def applyEvent {σ : Type} (pre post : Callback σ) (s : σ) : Event → σ
  | .pre x => match pre with
    | some p => p x s
    | none => s
  | .post x => match post with
    | some q => q x s
    | none => s

mutual
/-- The nodes of a tree in preorder: a node, then its children's subtrees in
sibling order. -/
def preorder : Node → List Node
  | .mk d cs => .mk d cs :: preorderList cs
/-- The preorders of a list of trees, one after the other. -/
def preorderList : List Node → List Node
  | [] => []
  | c :: cs => preorder c ++ preorderList cs
end

mutual
/-- The nodes of a tree in postorder: the children's subtrees in sibling order,
then the node. -/
def postorder : Node → List Node
  | .mk d cs => postorderList cs ++ [.mk d cs]
/-- The postorders of a list of trees, one after the other. -/
def postorderList : List Node → List Node
  | [] => []
  | c :: cs => postorder c ++ postorderList cs
end

mutual
/-- The calls of a full walk of a tree: `pre` on the node, the walks of the
children, `post` on the node. -/
def walk : Node → List Event
  | .mk d cs => Event.pre (.mk d cs) :: (walkList cs ++ [Event.post (.mk d cs)])
/-- The walks of a list of trees, one after the other. -/
def walkList : List Node → List Event
  | [] => []
  | c :: cs => walk c ++ walkList cs
end

/-- A small document tree: `html` with children `head` and `body`, and `p` under
`body`. -/
def sampleTree : Node := .mk "html" [.mk "head" [], .mk "body" [.mk "p" []]]

/-! ## Theorems -/

/-! ### First-occurrence deduplication -/

theorem dedupFirst_filter (p : String → Bool) (l : List String) :
    dedupFirst (l.filter p) = (dedupFirst l).filter p := by
  induction l with
  | nil => rfl
  | cons x xs ih =>
    by_cases hp : p x = true
    · simp only [List.filter_cons, hp, if_true, dedupFirst, ih, List.filter_filter]
      congr 1
      apply List.filter_congr
      intro y _
      exact Bool.and_comm _ _
    · simp only [List.filter_cons, hp, dedupFirst, List.filter_filter]
      simp only [Bool.false_eq_true, if_false]
      rw [ih]
      apply List.filter_congr
      intro y _
      by_cases hy : y = x
      · subst hy; simp [hp]
      · simp [hy]

theorem mem_dedupFirst (l : List String) (x : String) : x ∈ dedupFirst l ↔ x ∈ l := by
  induction l with
  | nil => simp [dedupFirst]
  | cons a as ih =>
    simp only [dedupFirst, List.mem_cons, List.mem_filter, ih, decide_eq_true_eq]
    by_cases h : x = a <;> simp [h]

theorem nodup_dedupFirst (l : List String) : (dedupFirst l).Nodup := by
  induction l with
  | nil => simp [dedupFirst]
  | cons a as ih =>
    simp only [dedupFirst, List.nodup_cons, List.mem_filter, decide_eq_true_eq]
    exact ⟨fun h => h.2 rfl, ih.filter _⟩

/-! ### The inner loop -/

theorem visit_seen {σ : Type} (f : Discover σ) (st : BFState σ) (item y : String) :
    (visit f st item).seen y = (st.seen y || decide (y = item)) := by
  unfold visit
  by_cases h : st.seen item = false
  · simp only [h, if_true]
    by_cases hy : y = item <;> simp [hy]
  · simp only [h, if_false]
    by_cases hy : y = item
    · subst hy; simp at h; simp [h]
    · simp [hy]

theorem foldl_visit_seen {σ : Type} (f : Discover σ) (xs : List String) (st : BFState σ)
    (y : String) :
    (xs.foldl (visit f) st).seen y = (st.seen y || decide (y ∈ xs)) := by
  induction xs generalizing st with
  | nil => simp
  | cons x xs ih =>
    simp only [List.foldl_cons, ih, visit_seen, List.mem_cons]
    by_cases h1 : y = x <;> by_cases h2 : y ∈ xs <;> simp [h1, h2]

/-- The calls made by the inner loop over `xs`, together with what it appends to the
worklist: the new part `d` of the trace lists, in order of first occurrence, the
items of `xs` that were not yet seen. -/
theorem foldl_visit_trace {σ : Type} (f : Discover σ) (xs : List String) (st : BFState σ) :
    ∃ d : List (String × List String),
      (xs.foldl (visit f) st).trace = st.trace ++ d ∧
      (xs.foldl (visit f) st).worklist = st.worklist ++ d.flatMap Prod.snd ∧
      d.map Prod.fst = dedupFirst (xs.filter (fun x => !st.seen x)) ∧
      ∀ e, e ∈ d → ∃ env, e.2 = (f e.1 env).1 := by
  induction xs generalizing st with
  | nil => exact ⟨[], by simp [dedupFirst]⟩
  | cons x xs ih =>
    by_cases h : st.seen x = false
    · obtain ⟨d, h1, h2, h3, h4⟩ := ih (visit f st x)
      have hv : visit f st x =
          { seen := fun k => if k = x then true else st.seen k
            worklist := st.worklist ++ (f x st.env).1
            trace := st.trace ++ [(x, (f x st.env).1)]
            env := (f x st.env).2 } := by
        simp [visit, h]
      refine ⟨(x, (f x st.env).1) :: d, ?_, ?_, ?_, ?_⟩
      · rw [List.foldl_cons, h1, hv]; simp
      · rw [List.foldl_cons, h2, hv]; simp
      rotate_left
      · intro e he
        rcases List.mem_cons.1 he with rfl | he
        · exact ⟨st.env, rfl⟩
        · exact h4 e he
      · rw [List.map_cons, h3, hv]
        simp only [List.filter_cons, h, Bool.not_false, if_true, dedupFirst]
        congr 1
        rw [← dedupFirst_filter, List.filter_filter]
        congr 1
        apply List.filter_congr
        intro y _
        by_cases hy : y = x <;> simp [hy]
    · have hv : visit f st x = st := by simp [visit, h]
      obtain ⟨d, h1, h2, h3, h4⟩ := ih st
      refine ⟨d, ?_, ?_, ?_, h4⟩
      · rw [List.foldl_cons, hv, h1]
      · rw [List.foldl_cons, hv, h2]
      · rw [h3]
        simp at h
        simp [List.filter_cons, h]

theorem foldl_visit_calls {σ : Type} (f : Discover σ) (xs : List String) (st : BFState σ) :
    (xs.foldl (visit f) st).calls =
      st.calls ++ dedupFirst (xs.filter (fun x => !st.seen x)) := by
  obtain ⟨d, h1, _, h3, _⟩ := foldl_visit_trace f xs st
  simp [BFState.calls, h1, h3]

/-! ### One round -/

theorem round_calls {σ : Type} (f : Discover σ) (st : BFState σ) :
    (round f st).calls =
      st.calls ++ dedupFirst (st.worklist.filter (fun x => !st.seen x)) := by
  unfold round
  rw [foldl_visit_calls]
  rfl

theorem round_seen {σ : Type} (f : Discover σ) (st : BFState σ) (y : String) :
    (round f st).seen y = (st.seen y || decide (y ∈ st.worklist)) := by
  unfold round
  rw [foldl_visit_seen]

theorem flatMap_snd_eq (g : String → List String) (d : List (String × List String))
    (h : ∀ e, e ∈ d → e.2 = g e.1) : d.flatMap Prod.snd = (d.map Prod.fst).flatMap g := by
  induction d with
  | nil => rfl
  | cons e d ih =>
    simp only [List.flatMap_cons, List.map_cons]
    rw [h e (List.mem_cons_self _ _), ih (fun e he => h e (List.mem_cons_of_mem _ he))]

theorem round_worklist_pure (g : String → List String) (st : BFState Unit) :
    (round (liftPure g) st).worklist =
      (dedupFirst (st.worklist.filter (fun x => !st.seen x))).flatMap g := by
  unfold round
  obtain ⟨d, _, h2, h3, h4⟩ :=
    foldl_visit_trace (liftPure g) st.worklist { st with worklist := [] }
  rw [h2, ← h3]
  simp only [List.nil_append]
  apply flatMap_snd_eq
  intro e he
  obtain ⟨env, henv⟩ := h4 e he
  exact henv

theorem round_of_nil {σ : Type} (f : Discover σ) (st : BFState σ) (h : st.worklist = []) :
    round f st = st := by
  cases st with
  | mk seen worklist trace env =>
    simp only at h
    subst h
    rfl

theorem round_seenExact {σ : Type} (f : Discover σ) (st : BFState σ) (h : SeenExact st) :
    SeenExact (round f st) := by
  obtain ⟨hnd, hseen⟩ := h
  refine ⟨?_, ?_⟩
  · rw [round_calls, List.nodup_append]
    refine ⟨hnd, nodup_dedupFirst _, ?_⟩
    intro y hy hy2
    rw [mem_dedupFirst, List.mem_filter] at hy2
    have := (hseen y).2 hy
    simp [this] at hy2
  · intro y
    rw [round_seen, round_calls, List.mem_append, mem_dedupFirst, List.mem_filter, ← hseen y]
    by_cases h1 : st.seen y = true <;> by_cases h2 : y ∈ st.worklist <;> simp [h1, h2]

/-! ### The outer loop -/

theorem runRounds_succ {σ : Type} (f : Discover σ) (n : Nat) (st : BFState σ) :
    runRounds f (n + 1) st = round f (runRounds f n st) := by
  induction n generalizing st with
  | zero =>
    by_cases h : st.worklist.length > 0
    · simp [runRounds, h]
    · have h0 : st.worklist = [] := by
        cases hw : st.worklist with
        | nil => rfl
        | cons a l => simp [hw] at h
      simp [runRounds, h0, round_of_nil f st h0]
  | succ n ih =>
    by_cases h : st.worklist.length > 0
    · have e1 : runRounds f (n + 1 + 1) st = runRounds f (n + 1) (round f st) := by
        simp [runRounds, h]
      have e2 : runRounds f (n + 1) st = runRounds f n (round f st) := by
        simp [runRounds, h]
      rw [e1, ih, e2]
    · have h0 : st.worklist = [] := by
        cases hw : st.worklist with
        | nil => rfl
        | cons a l => simp [hw] at h
      have e1 : runRounds f (n + 1 + 1) st = st := by simp [runRounds, h0]
      have e2 : runRounds f (n + 1) st = st := by simp [runRounds, h0]
      rw [e1, e2, round_of_nil f st h0]

theorem runRounds_of_nil {σ : Type} (f : Discover σ) (n : Nat) (st : BFState σ)
    (h : st.worklist = []) : runRounds f n st = st := by
  cases n with
  | zero => rfl
  | succ n => simp [runRounds, h]

theorem breadthFirstLoop_eq {σ : Type} (f : Discover σ) (fuel : Nat) (st : BFState σ) :
    breadthFirstLoop f fuel st =
      if (runRounds f fuel st).worklist.length > 0 then none
      else some (runRounds f fuel st) := by
  induction fuel generalizing st with
  | zero => simp [breadthFirstLoop, runRounds]
  | succ n ih =>
    by_cases h : st.worklist.length > 0
    · simp only [breadthFirstLoop, runRounds, h, if_true, ih]
    · simp [breadthFirstLoop, runRounds, h]

theorem breadthFirst_eq_some {σ : Type} (f : Discover σ) (seeds : List String) (env : σ)
    (fuel : Nat) (st : BFState σ) (h : breadthFirst f seeds env fuel = some st) :
    st = stateAfter f seeds env fuel ∧ st.worklist = [] := by
  unfold breadthFirst at h
  rw [breadthFirstLoop_eq] at h
  unfold stateAfter
  by_cases hw : (runRounds f fuel (initState seeds env)).worklist.length > 0
  · simp [hw] at h
  · simp only [hw, if_false, Option.some.injEq] at h
    subst h
    refine ⟨rfl, ?_⟩
    cases hl : (runRounds f fuel (initState seeds env)).worklist with
    | nil => rfl
    | cons a l => simp [hl] at hw

theorem stateAfter_succ {σ : Type} (f : Discover σ) (seeds : List String) (env : σ)
    (n : Nat) : stateAfter f seeds env (n + 1) = round f (stateAfter f seeds env n) :=
  runRounds_succ f n _

theorem stateAfter_seenExact {σ : Type} (f : Discover σ) (seeds : List String) (env : σ)
    (n : Nat) : SeenExact (stateAfter f seeds env n) := by
  induction n with
  | zero =>
    refine ⟨?_, ?_⟩
    · simp [stateAfter, runRounds, initState, BFState.calls]
    · simp [stateAfter, runRounds, initState, BFState.calls]
  | succ n ih =>
    rw [stateAfter_succ]
    exact round_seenExact f _ ih

/-! ### Depth and reachability -/

theorem reachIn_hasDepth (g : String → List String) (seeds : List String) (k : Nat)
    (x : String) (h : ReachIn g seeds k x) : ∃ j, j ≤ k ∧ HasDepth g seeds x j := by
  induction k using Nat.strong_induction_on with
  | _ k ih =>
    by_cases hex : ∃ j, j < k ∧ ReachIn g seeds j x
    · obtain ⟨j, hj, hr⟩ := hex
      obtain ⟨i, hi, hd⟩ := ih j hj hr
      exact ⟨i, by omega, hd⟩
    · exact ⟨k, le_refl k, h, fun j hj hr => hex ⟨j, hj, hr⟩⟩

theorem hasDepth_unique (g : String → List String) (seeds : List String) (x : String)
    (j k : Nat) (hj : HasDepth g seeds x j) (hk : HasDepth g seeds x k) : j = k := by
  rcases Nat.lt_trichotomy j k with h | h | h
  · exact absurd hj.1 (hk.2 j h)
  · exact h
  · exact absurd hk.1 (hj.2 k h)

theorem reachIn_reachable (g : String → List String) (seeds : List String) (k : Nat)
    (x : String) (h : ReachIn g seeds k x) : Reachable g seeds x := by
  induction k generalizing x with
  | zero => exact Reachable.seed h
  | succ k ih =>
    obtain ⟨y, hy, hx⟩ := h
    exact Reachable.step (ih y hy) hx

theorem reachable_reachIn (g : String → List String) (seeds : List String) (x : String)
    (h : Reachable g seeds x) : ∃ k, ReachIn g seeds k x := by
  induction h with
  | seed hs => exact ⟨0, hs⟩
  | step _ hx ih =>
    obtain ⟨k, hk⟩ := ih
    exact ⟨k + 1, _, hk, hx⟩

theorem reachable_hasDepth (g : String → List String) (seeds : List String) (x : String)
    (h : Reachable g seeds x) : ∃ k, HasDepth g seeds x k := by
  obtain ⟨k, hk⟩ := reachable_reachIn g seeds x h
  obtain ⟨j, _, hj⟩ := reachIn_hasDepth g seeds k x hk
  exact ⟨j, hj⟩

/-! ### The level invariant -/

theorem levelInv_init {σ : Type} (g : String → List String) (seeds : List String) (env : σ) :
    LevelInv g seeds 0 (initState seeds env) := by
  refine ⟨?_, ?_, ?_⟩
  · intro y
    simp [initState]
  · intro y hy
    exact hy
  · intro y hy
    exact hy.1

/-- Under the level invariant, the items a round dispatches are the items of
depth `r`. -/
theorem levelInv_fresh {σ : Type} (g : String → List String) (seeds : List String) (r : Nat)
    (st : BFState σ) (h : LevelInv g seeds r st) (y : String) :
    y ∈ dedupFirst (st.worklist.filter (fun x => !st.seen x)) ↔ HasDepth g seeds y r := by
  obtain ⟨h1, h2, h3⟩ := h
  rw [mem_dedupFirst, List.mem_filter]
  constructor
  · rintro ⟨hw, hs⟩
    refine ⟨h2 y hw, ?_⟩
    intro j hj hr
    obtain ⟨i, hi, hd⟩ := reachIn_hasDepth g seeds j y hr
    have : st.seen y = true := (h1 y).2 ⟨i, by omega, hd⟩
    simp [this] at hs
  · intro hd
    refine ⟨h3 y hd, ?_⟩
    by_cases hs : st.seen y = true
    · obtain ⟨j, hj, hdj⟩ := (h1 y).1 hs
      have := hasDepth_unique g seeds y j r hdj hd
      omega
    · simp at hs
      simp [hs]

theorem levelInv_round (g : String → List String) (seeds : List String) (r : Nat)
    (st : BFState Unit) (h : LevelInv g seeds r st) :
    LevelInv g seeds (r + 1) (round (liftPure g) st) := by
  have hfresh := levelInv_fresh g seeds r st h
  obtain ⟨h1, h2, h3⟩ := h
  refine ⟨?_, ?_, ?_⟩
  · intro y
    rw [round_seen]
    constructor
    · intro hy
      rcases Bool.or_eq_true_iff.1 hy with hs | hw
      · obtain ⟨j, hj, hd⟩ := (h1 y).1 hs
        exact ⟨j, by omega, hd⟩
      · obtain ⟨j, hj, hd⟩ := reachIn_hasDepth g seeds r y (h2 y (of_decide_eq_true hw))
        exact ⟨j, by omega, hd⟩
    · rintro ⟨j, hj, hd⟩
      by_cases hjr : j < r
      · simp [(h1 y).2 ⟨j, hjr, hd⟩]
      · have : j = r := by omega
        subst this
        simp [h3 y hd]
  · intro y hy
    rw [round_worklist_pure, List.mem_flatMap] at hy
    obtain ⟨x, hx, hyx⟩ := hy
    exact ⟨x, ((hfresh x).1 hx).1, hyx⟩
  · intro y hd
    obtain ⟨x, hx, hyx⟩ := hd.1
    obtain ⟨j, hj, hdx⟩ := reachIn_hasDepth g seeds r x hx
    have hjr : j = r := by
      by_contra hne
      exact hd.2 (j + 1) (by omega) ⟨x, hdx.1, hyx⟩
    subst hjr
    rw [round_worklist_pure, List.mem_flatMap]
    exact ⟨x, (hfresh x).2 hdx, hyx⟩

theorem stateAfter_levelInv (g : String → List String) (seeds : List String) (n : Nat) :
    LevelInv g seeds n (stateAfter (liftPure g) seeds () n) := by
  induction n with
  | zero => exact levelInv_init g seeds ()
  | succ n ih =>
    rw [stateAfter_succ]
    exact levelInv_round g seeds n _ ih

theorem dispatched_eq {σ : Type} (f : Discover σ) (seeds : List String) (env : σ) (r : Nat) :
    dispatched f seeds env r =
      dedupFirst ((stateAfter f seeds env r).worklist.filter
        (fun x => !(stateAfter f seeds env r).seen x)) := by
  unfold dispatched
  rw [stateAfter_succ, round_calls, List.drop_left]

theorem mem_dispatched_iff (g : String → List String) (seeds : List String) (r : Nat)
    (x : String) : x ∈ dispatched (liftPure g) seeds () r ↔ HasDepth g seeds x r := by
  rw [dispatched_eq]
  exact levelInv_fresh g seeds r _ (stateAfter_levelInv g seeds r) x

theorem mem_calls_iff (g : String → List String) (seeds : List String) (n : Nat)
    (x : String) :
    x ∈ (stateAfter (liftPure g) seeds () n).calls ↔ ∃ j, j < n ∧ HasDepth g seeds x j := by
  rw [← (stateAfter_seenExact (liftPure g) seeds () n).2 x]
  exact (stateAfter_levelInv g seeds n).1 x

theorem stateAfter_calls_succ {σ : Type} (f : Discover σ) (seeds : List String) (env : σ)
    (n : Nat) : (stateAfter f seeds env (n + 1)).calls =
      (stateAfter f seeds env n).calls ++ dispatched f seeds env n := by
  rw [dispatched_eq, stateAfter_succ, round_calls]

/-! ### Runs that end -/

theorem stateAfter_stable {σ : Type} (f : Discover σ) (seeds : List String) (env : σ)
    (n m : Nat) (h : (stateAfter f seeds env n).worklist = []) :
    stateAfter f seeds env (n + m) = stateAfter f seeds env n := by
  induction m with
  | zero => rfl
  | succ m ih =>
    rw [← Nat.add_assoc, stateAfter_succ, ih, round_of_nil f _ h]

theorem breadthFirst_of_nil {σ : Type} (f : Discover σ) (seeds : List String) (env : σ)
    (n : Nat) (h : (stateAfter f seeds env n).worklist = []) :
    breadthFirst f seeds env n = some (stateAfter f seeds env n) := by
  unfold breadthFirst
  rw [breadthFirstLoop_eq]
  unfold stateAfter at h
  simp [h, stateAfter]

theorem breadthFirst_fuel_mono {σ : Type} (f : Discover σ) (seeds : List String) (env : σ)
    (n m : Nat) (st : BFState σ) (h : breadthFirst f seeds env n = some st) :
    breadthFirst f seeds env (n + m) = some st := by
  obtain ⟨h1, h2⟩ := breadthFirst_eq_some f seeds env n st h
  subst h1
  have hs := stateAfter_stable f seeds env n m h2
  rw [← hs]
  apply breadthFirst_of_nil
  rw [hs]
  exact h2

theorem calls_reachable (g : String → List String) (seeds : List String) (n : Nat)
    (x : String) (h : x ∈ (stateAfter (liftPure g) seeds () n).calls) :
    Reachable g seeds x := by
  obtain ⟨j, _, hd⟩ := (mem_calls_iff g seeds n x).1 h
  exact reachIn_reachable g seeds j x hd.1

theorem reachable_called (g : String → List String) (seeds : List String) (x : String)
    (h : Reachable g seeds x) :
    ∃ k, ∀ m, k < m → (stateAfter (liftPure g) seeds () m).calls.count x = 1 := by
  obtain ⟨k, hk⟩ := reachable_hasDepth g seeds x h
  refine ⟨k, fun m hm => ?_⟩
  apply List.count_eq_one_of_mem (stateAfter_seenExact _ seeds () m).1
  exact (mem_calls_iff g seeds m x).2 ⟨k, hm, hk⟩

theorem final_calls_count (g : String → List String) (seeds : List String) (fuel : Nat)
    (st : BFState Unit) (h : breadthFirst (liftPure g) seeds () fuel = some st)
    (x : String) (hx : Reachable g seeds x) : st.calls.count x = 1 := by
  obtain ⟨h1, h2⟩ := breadthFirst_eq_some _ seeds () fuel st h
  subst h1
  obtain ⟨k, hk⟩ := reachable_called g seeds x hx
  have hs := stateAfter_stable (liftPure g) seeds () fuel (k + 1) h2
  rw [← hs]
  exact hk _ (by omega)

theorem calls_length_ge {σ : Type} (f : Discover σ) (seeds : List String) (env : σ)
    (n : Nat) (h : ∀ k, k < n → dispatched f seeds env k ≠ []) :
    n ≤ (stateAfter f seeds env n).calls.length := by
  induction n with
  | zero => exact Nat.zero_le _
  | succ n ih =>
    have h1 := ih (fun k hk => h k (by omega))
    have h2 : 0 < (dispatched f seeds env n).length :=
      List.length_pos.2 (h n (by omega))
    rw [stateAfter_calls_succ, List.length_append]
    omega

theorem exists_round_nil (g : String → List String) (seeds : List String) (L : List String)
    (hL : ∀ x, Reachable g seeds x → x ∈ L) :
    ∃ n, n ≤ L.length + 1 ∧ (stateAfter (liftPure g) seeds () n).worklist = [] := by
  by_cases hex : ∃ k, k < L.length + 1 ∧ dispatched (liftPure g) seeds () k = []
  · obtain ⟨k, hk, hd⟩ := hex
    refine ⟨k + 1, by omega, ?_⟩
    rw [stateAfter_succ, round_worklist_pure, ← dispatched_eq, hd]
    rfl
  · exfalso
    have hge := calls_length_ge (liftPure g) seeds () (L.length + 1)
      (fun k hk hd => hex ⟨k, hk, hd⟩)
    have hsub : (stateAfter (liftPure g) seeds () (L.length + 1)).calls ⊆ L :=
      fun x hx => hL x (calls_reachable g seeds _ x hx)
    have hle := (List.subperm_of_subset
      (stateAfter_seenExact (liftPure g) seeds () (L.length + 1)).1 hsub).length_le
    omega

/-! ### Seed lists with repetitions -/

theorem foldl_visit_filter {σ : Type} (f : Discover σ) (p : String → Bool)
    (xs : List String) (st : BFState σ) (h : ∀ y, p y = false → st.seen y = true) :
    (xs.filter p).foldl (visit f) st = xs.foldl (visit f) st := by
  induction xs generalizing st with
  | nil => rfl
  | cons x xs ih =>
    by_cases hp : p x = true
    · simp only [List.filter_cons, hp, if_true, List.foldl_cons]
      apply ih
      intro y hy
      rw [visit_seen, h y hy]
      rfl
    · have hx : st.seen x = true := h x (by simpa using hp)
      have hv : visit f st x = st := by simp [visit, hx]
      simp only [List.filter_cons, hp, List.foldl_cons, hv]
      exact ih st h

theorem foldl_visit_dedupFirst {σ : Type} (f : Discover σ) (xs : List String)
    (st : BFState σ) :
    (dedupFirst xs).foldl (visit f) st = xs.foldl (visit f) st := by
  induction xs generalizing st with
  | nil => rfl
  | cons x xs ih =>
    simp only [dedupFirst, List.foldl_cons]
    rw [foldl_visit_filter, ih]
    intro y hy
    have : y = x := by simpa using hy
    subst this
    rw [visit_seen]
    simp

theorem dedupFirst_eq_nil (xs : List String) : dedupFirst xs = [] ↔ xs = [] := by
  cases xs with
  | nil => simp [dedupFirst]
  | cons x xs => simp [dedupFirst]

theorem round_init_dedupFirst {σ : Type} (f : Discover σ) (seeds : List String) (env : σ) :
    round f (initState (dedupFirst seeds) env) = round f (initState seeds env) := by
  unfold round
  exact foldl_visit_dedupFirst f seeds _

/-! ### What the trace records -/

theorem round_trace {σ : Type} (f : Discover σ) (st : BFState σ) :
    ∃ d : List (String × List String),
      (round f st).trace = st.trace ++ d ∧ ∀ e, e ∈ d → ∃ env, e.2 = (f e.1 env).1 := by
  unfold round
  obtain ⟨d, h1, _, _, h4⟩ := foldl_visit_trace f st.worklist { st with worklist := [] }
  exact ⟨d, h1, h4⟩

theorem stateAfter_trace_results {σ : Type} (f : Discover σ) (seeds : List String) (env : σ)
    (n : Nat) (e : String × List String) (he : e ∈ (stateAfter f seeds env n).trace) :
    ∃ env1, e.2 = (f e.1 env1).1 := by
  induction n with
  | zero => simp [stateAfter, runRounds, initState] at he
  | succ n ih =>
    rw [stateAfter_succ] at he
    obtain ⟨d, h1, h2⟩ := round_trace f (stateAfter f seeds env n)
    rw [h1, List.mem_append] at he
    rcases he with he | he
    · exact ih he
    · exact h2 e he

/-! ### Rounds, batches and the number of rounds -/

/-- Everything a round does: the entries `d` it adds to the trace are the calls on
the unseen items of the batch, and the next batch is the concatenation of their
results. -/
theorem round_full {σ : Type} (f : Discover σ) (st : BFState σ) :
    ∃ d : List (String × List String),
      (round f st).trace = st.trace ++ d ∧
      (round f st).worklist = d.flatMap Prod.snd ∧
      d.map Prod.fst = dedupFirst (st.worklist.filter (fun x => !st.seen x)) ∧
      ∀ e, e ∈ d → ∃ env, e.2 = (f e.1 env).1 := by
  unfold round
  obtain ⟨d, h1, h2, h3, h4⟩ :=
    foldl_visit_trace f st.worklist { st with worklist := [] }
  exact ⟨d, h1, by simpa using h2, h3, h4⟩

theorem round_worklist_of_no_call {σ : Type} (f : Discover σ) (st : BFState σ)
    (h : dedupFirst (st.worklist.filter (fun x => !st.seen x)) = []) :
    (round f st).worklist = [] ∧ (round f st).trace = st.trace := by
  obtain ⟨d, h1, h2, h3, _⟩ := round_full f st
  rw [h] at h3
  have hd : d = [] := List.map_eq_nil_iff.1 h3
  subst hd
  exact ⟨by simpa using h2, by simpa using h1⟩

theorem stateAfter_worklist_of_dispatched_nil {σ : Type} (f : Discover σ)
    (seeds : List String) (env : σ) (r : Nat) (h : dispatched f seeds env r = []) :
    (stateAfter f seeds env (r + 1)).worklist = [] := by
  rw [dispatched_eq] at h
  rw [stateAfter_succ]
  exact (round_worklist_of_no_call f _ h).1

theorem stateAfter_worklist_ne_nil {σ : Type} (f : Discover σ) (seeds : List String)
    (env : σ) (n m : Nat) (h : (stateAfter f seeds env (n + m)).worklist ≠ []) :
    (stateAfter f seeds env n).worklist ≠ [] := by
  intro h0
  rw [stateAfter_stable f seeds env n m h0] at h
  exact h h0

theorem breadthFirst_eq_none {σ : Type} (f : Discover σ) (seeds : List String) (env : σ)
    (n : Nat) (h : breadthFirst f seeds env n = none) :
    (stateAfter f seeds env n).worklist ≠ [] := by
  intro h0
  rw [breadthFirst_of_nil f seeds env n h0] at h
  exact Option.noConfusion h

/-- Every call is justified: its argument is a seed or occurs in the result of a
call recorded earlier in the trace; the same holds of the items of the worklist. -/
theorem stateAfter_justified {σ : Type} (f : Discover σ) (seeds : List String) (env : σ)
    (n : Nat) :
    (∀ y, y ∈ (stateAfter f seeds env n).worklist →
      y ∈ seeds ∨ ∃ e, e ∈ (stateAfter f seeds env n).trace ∧ y ∈ e.2) ∧
    (∀ (i : Nat) (e : String × List String),
      (stateAfter f seeds env n).trace[i]? = some e →
      e.1 ∈ seeds ∨ ∃ (j : Nat) (e1 : String × List String), j < i ∧
        (stateAfter f seeds env n).trace[j]? = some e1 ∧ e.1 ∈ e1.2) := by
  induction n with
  | zero =>
    refine ⟨fun y hy => Or.inl hy, ?_⟩
    intro i e he
    simp [stateAfter, runRounds, initState] at he
  | succ n ih =>
    obtain ⟨ihw, iht⟩ := ih
    obtain ⟨d, h1, h2, h3, _⟩ := round_full f (stateAfter f seeds env n)
    rw [stateAfter_succ, h1, h2]
    refine ⟨?_, ?_⟩
    · intro y hy
      obtain ⟨e, he, hye⟩ := List.mem_flatMap.1 hy
      exact Or.inr ⟨e, List.mem_append_right _ he, hye⟩
    · intro i e he
      by_cases hi : i < (stateAfter f seeds env n).trace.length
      · rw [List.getElem?_append_left hi] at he
        rcases iht i e he with hs | ⟨j, e1, hj, hj1, hj2⟩
        · exact Or.inl hs
        · refine Or.inr ⟨j, e1, hj, ?_, hj2⟩
          rw [List.getElem?_append_left (by omega)]
          exact hj1
      · rw [List.getElem?_append_right (by omega)] at he
        have hed : e ∈ d := List.getElem?_mem he
        have hfresh : e.1 ∈ dedupFirst ((stateAfter f seeds env n).worklist.filter
            (fun x => !(stateAfter f seeds env n).seen x)) := by
          rw [← h3]
          exact List.mem_map_of_mem _ hed
        rw [mem_dedupFirst, List.mem_filter] at hfresh
        rcases ihw e.1 hfresh.1 with hs | ⟨e1, he1, hy⟩
        · exact Or.inl hs
        · obtain ⟨j, hj, hje⟩ := List.getElem_of_mem he1
          refine Or.inr ⟨j, e1, by omega, ?_, hy⟩
          rw [List.getElem?_append_left hj, List.getElem?_eq_getElem hj, hje]

/-! ### Closures over a counter -/

theorem wrapInt_modEq (z : Int) : wrapInt z ≡ z [ZMOD 18446744073709551616] := by
  unfold Int.ModEq wrapInt
  omega

theorem wrapInt_congr (a b : Int) (h : a ≡ b [ZMOD 18446744073709551616]) : wrapInt a = wrapInt b := by
  unfold Int.ModEq at h
  unfold wrapInt
  omega

theorem wrapInt_of_lt (z : Int) (h0 : 0 ≤ z) (h1 : z < 9223372036854775808) : wrapInt z = z := by
  unfold wrapInt
  omega

theorem wrapInt_zero : wrapInt 0 = 0 := by
  unfold wrapInt
  omega

theorem wrapInt_succ (v : Int) : wrapInt (wrapInt v + 1) = wrapInt (v + 1) :=
  wrapInt_congr _ _ ((wrapInt_modEq v).add_right 1)

theorem wrapInt_sq (v : Int) : wrapInt (wrapInt v * wrapInt v) = wrapInt (v * v) :=
  wrapInt_congr _ _ ((wrapInt_modEq v).mul (wrapInt_modEq v))

theorem callClosure_length (c : Nat) (h : Heap) : (callClosure c h).2.length = h.length := by
  simp [callClosure]

theorem callClosure_self (c : Nat) (h : Heap) (v : Nat) (hg : c < h.length)
    (hv : h.getD c 0 = wrapInt v) :
    (callClosure c h).2.getD c 0 = wrapInt ((v + 1 : Nat) : Int) ∧
      (callClosure c h).1 = wrapInt (((v + 0 + 1 : Nat) : Int) * ((v + 0 + 1 : Nat) : Int)) := by
  constructor
  · simp only [callClosure, hv]
    rw [List.getD_eq_getElem _ _ (by simpa using hg)]
    simp [wrapInt_succ]
  · simp only [callClosure, hv]
    rw [wrapInt_succ, wrapInt_sq]
    simp

theorem callClosure_other (c g : Nat) (h : Heap) (hc : c ≠ g) (hg : g < h.length) :
    (callClosure c h).2.getD g 0 = h.getD g 0 := by
  simp only [callClosure]
  rw [List.getD_eq_getElem _ _ (by simpa using hg), List.getD_eq_getElem _ _ hg]
  rw [List.getElem_set_ne hc]

theorem runCalls_cons (c : Nat) (cs : List Nat) (h : Heap) :
    runCalls (c :: cs) h = (c, (callClosure c h).1) :: runCalls cs (callClosure c h).2 := by
  simp only [runCalls]


theorem runCalls_filter (g : Nat) (cs : List Nat) (h : Heap) (v : Nat)
    (hg : g < h.length) (hv : h.getD g 0 = wrapInt v) :
    ((runCalls cs h).filter (fun r => decide (r.1 = g))).map Prod.snd =
      (List.range (cs.count g)).map
        (fun i => wrapInt (((v + i + 1 : Nat) : Int) * ((v + i + 1 : Nat) : Int))) := by
  induction cs generalizing h v with
  | nil => simp only [runCalls, List.filter_nil, List.map_nil, List.count_nil, List.range_zero]
  | cons c cs ih =>
    have hlen : g < (callClosure c h).2.length := by rw [callClosure_length]; exact hg
    rw [runCalls_cons]
    by_cases hc : c = g
    · subst hc
      obtain ⟨hval, hres⟩ := callClosure_self c h v hg hv
      have hih := ih _ (v + 1) hlen hval
      clear hval hlen ih
      revert hih hres
      generalize (callClosure c h).1 = r
      generalize (callClosure c h).2 = h1
      intro hres hih
      subst hres
      rw [List.filter_cons_of_pos (by simp only [decide_eq_true_eq])]
      rw [List.map_cons, List.count_cons_self, List.range_succ_eq_map, List.map_cons,
        List.map_map, hih]
      refine congrArg₂ List.cons (Eq.refl _) ?_
      apply List.map_congr_left
      intro i _
      have e : v + 1 + i + 1 = v + Nat.succ i + 1 := by omega
      rw [Function.comp_apply, e]
    · have hval : (callClosure c h).2.getD g 0 = wrapInt v := by
        rw [callClosure_other c g h hc hg, hv]
      have hih := ih _ v hlen hval
      clear hval hlen ih
      revert hih
      generalize (callClosure c h).1 = r
      generalize (callClosure c h).2 = h1
      intro hih
      rw [List.filter_cons_of_neg (by simpa only [decide_eq_true_eq] using hc),
        List.count_cons_of_ne (fun e => hc e.symm)]
      exact hih


theorem runCalls_map_fst (cs : List Nat) (h : Heap) : (runCalls cs h).map Prod.fst = cs := by
  induction cs generalizing h with
  | nil => rfl
  | cons c cs ih =>
    have hrun : runCalls (c :: cs) h =
        (c, (callClosure c h).1) :: runCalls cs (callClosure c h).2 := rfl
    rw [hrun, List.map_cons, ih]

theorem runCalls_replicate (g k : Nat) (h : Heap) (hg : g < h.length)
    (hv : h.getD g 0 = 0) :
    (runCalls (List.replicate k g) h).map Prod.snd =
      (List.range k).map (fun i => wrapInt (((i + 1 : Nat) : Int) * ((i + 1 : Nat) : Int))) := by
  have hf := runCalls_filter g (List.replicate k g) h 0 hg (by simpa [wrapInt_zero] using hv)
  have hall : (runCalls (List.replicate k g) h).filter (fun r => decide (r.1 = g)) =
      runCalls (List.replicate k g) h := by
    apply List.filter_eq_self.2
    intro r hr
    have : r.1 ∈ (runCalls (List.replicate k g) h).map Prod.fst := List.mem_map_of_mem _ hr
    rw [runCalls_map_fst] at this
    simpa using (List.mem_replicate.1 this).2
  rw [hall, List.count_replicate_self] at hf
  rw [hf]
  apply List.map_congr_left
  intro i _
  simp

theorem squares_fresh (h : Heap) :
    (squares h).1 < (squares h).2.length ∧ (squares h).2.getD (squares h).1 0 = 0 := by
  simp [squares]

theorem count_sched (a b : Nat) (hab : a ≠ b) (sched : List Bool) :
    (sched.map (fun s => if s = true then a else b)).count a = sched.count true ∧
    (sched.map (fun s => if s = true then a else b)).count b = sched.count false := by
  induction sched with
  | nil => simp
  | cons s ss ih =>
    cases s
    · simp [List.count_cons, ih, hab, Ne.symm hab]
    · simp [List.count_cons, ih, hab, Ne.symm hab]


theorem squares_two (h : Heap) :
    (squares h).1 < (squares (squares h).2).2.length ∧
      (squares (squares h).2).2.getD (squares h).1 0 = 0 ∧
      (squares (squares h).2).1 < (squares (squares h).2).2.length ∧
      (squares (squares h).2).2.getD (squares (squares h).2).1 0 = 0 ∧
      (squares h).1 ≠ (squares (squares h).2).1 := by
  have e1 : (squares h).1 = h.length := rfl
  have e2 : (squares (squares h).2).1 = h.length + 1 := by simp [squares]
  have e3 : (squares (squares h).2).2 = h ++ [0, 0] := by simp [squares]
  rw [e1, e2, e3]
  refine ⟨by simp, ?_, by simp, ?_, by omega⟩
  · rw [List.getD_eq_getElem _ _ (by simp)]
    rw [List.getElem_append_right (by omega)]
    simp
  · rw [List.getD_eq_getElem _ _ (by simp)]
    rw [List.getElem_append_right (by omega)]
    simp

/-! ### Tree walks -/

mutual
theorem forEachNode_replay {σ : Type} (pre post : Callback σ) :
    ∀ (n : Node) (s : σ),
      forEachNode pre post n s = some ((walk n).foldl (applyEvent pre post) s)
  | .mk d cs, s => by
    have ih := fun s1 => forEachChild_replay pre post cs s1
    cases pre <;> cases post <;>
      simp [forEachNode, invoke, walk, ih, List.foldl_append, applyEvent]
theorem forEachChild_replay {σ : Type} (pre post : Callback σ) :
    ∀ (cs : List Node) (s : σ),
      forEachChild pre post cs s = some ((walkList cs).foldl (applyEvent pre post) s)
  | [], s => by simp [forEachChild, walkList]
  | c :: cs, s => by
    simp [forEachChild, walkList, forEachNode_replay pre post c s,
      forEachChild_replay pre post cs, List.foldl_append]
end

theorem foldl_record (pre post : Bool) (ev l : List Event) :
    ev.foldl (applyEvent (if pre then some recPre else none)
        (if post then some recPost else none)) l =
      l ++ ev.filter (fun e => match e with
        | .pre _ => pre
        | .post _ => post) := by
  induction ev generalizing l with
  | nil => simp
  | cons e ev ih =>
    rw [List.foldl_cons, ih]
    cases e <;> cases pre <;> cases post <;> simp [applyEvent, recPre, recPost]

mutual
theorem walk_preOf : ∀ (n : Node), (walk n).filterMap Event.preOf = preorder n
  | .mk d cs => by
    simp [walk, preorder, List.filterMap_append, Event.preOf, walkList_preOf cs]
theorem walkList_preOf : ∀ (cs : List Node),
    (walkList cs).filterMap Event.preOf = preorderList cs
  | [] => by simp [walkList, preorderList]
  | c :: cs => by
    simp [walkList, preorderList, List.filterMap_append, walk_preOf c, walkList_preOf cs]
end

mutual
theorem walk_postOf : ∀ (n : Node), (walk n).filterMap Event.postOf = postorder n
  | .mk d cs => by
    simp [walk, postorder, List.filterMap_append, Event.postOf, walkList_postOf cs]
theorem walkList_postOf : ∀ (cs : List Node),
    (walkList cs).filterMap Event.postOf = postorderList cs
  | [] => by simp [walkList, postorderList]
  | c :: cs => by
    simp [walkList, postorderList, List.filterMap_append, walk_postOf c, walkList_postOf cs]
end

mutual
theorem walk_infix : ∀ (n x : Node), x ∈ preorder n →
    ∃ a b, walk n = a ++ walk x ++ b
  | .mk d cs, x, hx => by
    rw [preorder, List.mem_cons] at hx
    rcases hx with rfl | hx
    · exact ⟨[], [], by simp⟩
    · obtain ⟨a, b, hab⟩ := walkList_infix cs x hx
      refine ⟨Event.pre (.mk d cs) :: a, b ++ [Event.post (.mk d cs)], ?_⟩
      rw [walk, hab]
      simp
theorem walkList_infix : ∀ (cs : List Node) (x : Node), x ∈ preorderList cs →
    ∃ a b, walkList cs = a ++ walk x ++ b
  | [], x, hx => by simp [preorderList] at hx
  | c :: cs, x, hx => by
    rw [preorderList, List.mem_append] at hx
    rcases hx with hx | hx
    · obtain ⟨a, b, hab⟩ := walk_infix c x hx
      refine ⟨a, b ++ walkList cs, ?_⟩
      rw [walkList, hab]
      simp
    · obtain ⟨a, b, hab⟩ := walkList_infix cs x hx
      refine ⟨walk c ++ a, b, ?_⟩
      rw [walkList, hab]
      simp
end

mutual
theorem preorder_perm : ∀ (n : Node), (preorder n).Perm (postorder n)
  | .mk d cs => by
    rw [preorder, postorder]
    exact (List.perm_append_singleton _ _).symm.trans
      ((preorderList_perm cs).append_right _)
theorem preorderList_perm : ∀ (cs : List Node), (preorderList cs).Perm (postorderList cs)
  | [] => by simp [preorderList, postorderList]
  | c :: cs => by
    rw [preorderList, postorderList]
    exact (preorder_perm c).append (preorderList_perm cs)
end

theorem walk_foldl_pre {σ : Type} (p : Node → σ → σ) (ev : List Event) (s : σ) :
    ev.foldl (applyEvent (some p) none) s =
      (ev.filterMap Event.preOf).foldl (fun s x => p x s) s := by
  induction ev generalizing s with
  | nil => rfl
  | cons e ev ih =>
    cases e <;> simp [applyEvent, Event.preOf, ih]

theorem walk_foldl_post {σ : Type} (q : Node → σ → σ) (ev : List Event) (s : σ) :
    ev.foldl (applyEvent none (some q)) s =
      (ev.filterMap Event.postOf).foldl (fun s x => q x s) s := by
  induction ev generalizing s with
  | nil => rfl
  | cons e ev ih =>
    cases e <;> simp [applyEvent, Event.postOf, ih]

theorem walk_foldl_none {σ : Type} (ev : List Event) (s : σ) :
    ev.foldl (applyEvent (none : Callback σ) none) s = s := by
  induction ev generalizing s with
  | nil => rfl
  | cons e ev ih =>
    cases e <;> simp [applyEvent, ih]

theorem walk_children (x : Node) :
    walk x = Event.pre x :: (walkList x.children ++ [Event.post x]) := by
  cases x with
  | mk d cs => simp [walk, Node.children]

/-! ## The claims -/

/-- C1: in every finite prefix of a run of `breadthFirst(f, seeds)`, and in every
completed run, the sequence of items on which `f` is invoked has no item twice, for
every discovery function `f` (with effects or not, whatever it returns). -/
theorem breadthFirst_at_most_once {σ : Type} (f : Discover σ) (seeds : List String)
    (env : σ) (n : Nat) :
    (stateAfter f seeds env n).calls.Nodup ∧
    (∀ x, (stateAfter f seeds env n).calls.count x ≤ 1) ∧
    (∀ st, breadthFirst f seeds env n = some st → st.calls.Nodup) := by
  have h := (stateAfter_seenExact f seeds env n).1
  refine ⟨h, List.nodup_iff_count_le_one.1 h, ?_⟩
  intro st hst
  rw [(breadthFirst_eq_some f seeds env n st hst).1]
  exact h

/-- C2: when `breadthFirst(f, seeds)` terminates, every item reachable from the
seeds occurs exactly once in the sequence of calls made to `f`. -/
theorem breadthFirst_exactly_once (g : String → List String) (seeds : List String)
    (fuel : Nat) (st : BFState Unit)
    (h : breadthFirst (liftPure g) seeds () fuel = some st)
    (x : String) (hx : Reachable g seeds x) : st.calls.count x = 1 :=
  final_calls_count g seeds fuel st h x hx

/-- Witness for C2: the example scenario, where `D` is reached through `B`. -/
theorem breadthFirst_exactly_once_witness :
    breadthFirst (liftPure exampleGraph) ["A"] () 3
        = some (stateAfter (liftPure exampleGraph) ["A"] () 3) ∧
      Reachable exampleGraph ["A"] "D" ∧
      (stateAfter (liftPure exampleGraph) ["A"] () 3).calls.count "D" = 1 :=
  have hr : Reachable exampleGraph ["A"] "D" :=
    Reachable.step (y := "B")
      (Reachable.step (y := "A") (Reachable.seed (by decide)) (by decide)) (by decide)
  ⟨rfl, hr, breadthFirst_exactly_once exampleGraph ["A"] 3 _ rfl "D" hr⟩

/-- C3: the items dispatched in round `r` are exactly the items of depth `r`; the
depths along the call sequence are non-decreasing; and every call on an item of
depth `k` comes before every call on an item of depth `k + 1`. -/
theorem breadthFirst_depth_order (g : String → List String) (seeds : List String) :
    (∀ r x, x ∈ dispatched (liftPure g) seeds () r ↔ HasDepth g seeds x r) ∧
    (∀ n, (stateAfter (liftPure g) seeds () n).calls.Pairwise
      (fun a b => ∀ ka kb, HasDepth g seeds a ka → HasDepth g seeds b kb → ka ≤ kb)) ∧
    (∀ (n i j : Nat) (a b : String) (k : Nat),
      (stateAfter (liftPure g) seeds () n).calls[i]? = some a →
      (stateAfter (liftPure g) seeds () n).calls[j]? = some b →
      HasDepth g seeds a k → HasDepth g seeds b (k + 1) → i < j) := by
  have hpw : ∀ n, (stateAfter (liftPure g) seeds () n).calls.Pairwise
      (fun a b => ∀ ka kb, HasDepth g seeds a ka → HasDepth g seeds b kb → ka ≤ kb) := by
    intro n
    induction n with
    | zero => simp [stateAfter, runRounds, initState, BFState.calls]
    | succ n ih =>
      rw [stateAfter_calls_succ, List.pairwise_append]
      refine ⟨ih, ?_, ?_⟩
      · apply List.pairwise_of_forall_mem_list
        intro a ha b hb ka kb hka hkb
        have h1 := hasDepth_unique g seeds a ka n hka ((mem_dispatched_iff g seeds n a).1 ha)
        have h2 := hasDepth_unique g seeds b kb n hkb ((mem_dispatched_iff g seeds n b).1 hb)
        omega
      · intro a ha b hb ka kb hka hkb
        obtain ⟨j, hj, hd⟩ := (mem_calls_iff g seeds n a).1 ha
        have h1 := hasDepth_unique g seeds a ka j hka hd
        have h2 := hasDepth_unique g seeds b kb n hkb ((mem_dispatched_iff g seeds n b).1 hb)
        omega
  refine ⟨mem_dispatched_iff g seeds, hpw, ?_⟩
  intro n i j a b k hi hj hka hkb
  obtain ⟨hi1, hi2⟩ := List.getElem?_eq_some.1 hi
  obtain ⟨hj1, hj2⟩ := List.getElem?_eq_some.1 hj
  by_contra hij
  rcases Nat.lt_or_ge j i with hlt | hge
  · have := List.pairwise_iff_getElem.1 (hpw n) j i hj1 hi1 hlt (k + 1) k
      (hj2 ▸ hkb) (hi2 ▸ hka)
    omega
  · have hij2 : i = j := by omega
    subst hij2
    have hab : a = b := by rw [← hi2, ← hj2]
    subst hab
    have := hasDepth_unique g seeds a k (k + 1) hka hkb
    omega

/-- C4: when the set of items reachable from the seeds through `f` is finite,
`breadthFirst(f, seeds)` terminates: some amount of fuel, and every larger one,
gives the final state; cycles and self-loops make no difference. -/
theorem breadthFirst_terminates (g : String → List String) (seeds : List String)
    (hfin : Set.Finite {x | Reachable g seeds x}) :
    ∃ fuel st, ∀ m, breadthFirst (liftPure g) seeds () (fuel + m) = some st := by
  obtain ⟨n, _, hn⟩ := exists_round_nil g seeds hfin.toFinset.toList
    (fun x hx => by simpa using hx)
  exact ⟨n, stateAfter (liftPure g) seeds () n, fun m =>
    breadthFirst_fuel_mono _ seeds () n m _ (breadthFirst_of_nil _ seeds () n hn)⟩

/-- Witness for C4: the example scenario, whose graph has the cycle `A → B → A`. -/
theorem breadthFirst_terminates_witness :
    Set.Finite {x | Reachable exampleGraph ["A"] x} ∧
      ∃ fuel st, ∀ m,
        breadthFirst (liftPure exampleGraph) ["A"] () (fuel + m) = some st :=
  have hfin : Set.Finite {x | Reachable exampleGraph ["A"] x} := by
    apply Set.Finite.subset (List.finite_toSet ["A", "B", "C", "D"])
    intro x hx
    induction hx with
    | seed hs => simp at hs; simp [hs]
    | step _ hxy ih =>
      simp only [Set.mem_setOf_eq, List.mem_cons, List.mem_singleton] at ih
      rcases ih with rfl | rfl | rfl | rfl | h
      · simp [exampleGraph] at hxy; rcases hxy with rfl | rfl <;> simp
      · simp [exampleGraph] at hxy; rcases hxy with rfl | rfl <;> simp
      · simp [exampleGraph] at hxy
      · simp [exampleGraph] at hxy
      · simp at h
  ⟨hfin, breadthFirst_terminates exampleGraph ["A"] hfin⟩

/-- C5: in the example scenario `breadthFirst` terminates (three rounds are enough)
and its call sequence is exactly `A, B, C, D`: four calls, each item once. -/
theorem breadthFirst_example (m : Nat) :
    (breadthFirst (liftPure exampleGraph) ["A"] () (3 + m)).map BFState.calls
      = some ["A", "B", "C", "D"] := by
  rw [breadthFirst_fuel_mono (liftPure exampleGraph) ["A"] () 3 m
    (stateAfter (liftPure exampleGraph) ["A"] () 3) rfl]
  decide

/-- C6: `breadthFirst(f, s)` and `breadthFirst(f, dedup(s))` behave identically:
with the same fuel they give the same result (same calls with the same results,
same final state), and after any number of rounds they have made the same calls. -/
theorem breadthFirst_dedup_seeds {σ : Type} (f : Discover σ) (s : List String) (env : σ) :
    dedupFirst ["a", "a", "b"] = ["a", "b"] ∧
    (∀ fuel, breadthFirst f s env fuel = breadthFirst f (dedupFirst s) env fuel) ∧
    (∀ n, (stateAfter f s env n).trace = (stateAfter f (dedupFirst s) env n).trace) := by
  refine ⟨by decide, fun fuel => ?_, fun n => ?_⟩
  · cases s with
    | nil => rfl
    | cons x xs =>
      have hr := round_init_dedupFirst f (x :: xs) env
      cases fuel with
      | zero => simp [breadthFirst, breadthFirstLoop, initState, dedupFirst]
      | succ k =>
        have e1 : breadthFirst f (x :: xs) env (k + 1) =
            breadthFirstLoop f k (round f (initState (x :: xs) env)) := by
          simp [breadthFirst, breadthFirstLoop, initState]
        have e2 : breadthFirst f (dedupFirst (x :: xs)) env (k + 1) =
            breadthFirstLoop f k (round f (initState (dedupFirst (x :: xs)) env)) := by
          simp [breadthFirst, breadthFirstLoop, initState, dedupFirst]
        rw [e1, e2, hr]
  · cases s with
    | nil => rfl
    | cons x xs =>
      have hr := round_init_dedupFirst f (x :: xs) env
      cases n with
      | zero => rfl
      | succ k =>
        have e1 : stateAfter f (x :: xs) env (k + 1) =
            runRounds f k (round f (initState (x :: xs) env)) := by
          simp [stateAfter, runRounds, initState]
        have e2 : stateAfter f (dedupFirst (x :: xs)) env (k + 1) =
            runRounds f k (round f (initState (dedupFirst (x :: xs)) env)) := by
          simp [stateAfter, runRounds, initState, dedupFirst]
        rw [e1, e2, hr]

/-- C7: `breadthFirst(f, [])` returns at once, with no fuel at all (no round is
executed), having made no call to `f` and leaving the environment of `f` as it
was. -/
theorem breadthFirst_nil {σ : Type} (f : Discover σ) (env : σ) (fuel : Nat) :
    breadthFirst f [] env 0 = some (initState [] env) ∧
    breadthFirst f [] env fuel = some (initState [] env) ∧
    (initState [] env).calls = [] ∧ (initState [] env).trace = [] ∧
    (initState [] env).env = env := by
  refine ⟨rfl, ?_, rfl, rfl, rfl⟩
  cases fuel <;> rfl

/-- C8: a round that starts with batch `B` and seen-set `S` calls `f` on exactly
the items of `B` that are not in `S`, each once, in the order of their first
occurrence in `B`. -/
theorem round_dispatch_order {σ : Type} (f : Discover σ) (st : BFState σ) :
    (round f st).calls =
      st.calls ++ dedupFirst (st.worklist.filter (fun x => !st.seen x)) ∧
    (dedupFirst (st.worklist.filter (fun x => !st.seen x))).Nodup ∧
    (∀ x, x ∈ dedupFirst (st.worklist.filter (fun x => !st.seen x)) ↔
      x ∈ st.worklist ∧ st.seen x = false) := by
  refine ⟨round_calls f st, nodup_dedupFirst _, fun x => ?_⟩
  rw [mem_dedupFirst, List.mem_filter]
  simp

/-- C9, as stated, fails when the failing item is not reachable: with seeds `[C]`
and the failure at `B`, the run ends after the calls `C, D` and `B` is never called. -/
theorem failed_item_unreached :
    (breadthFirst (liftPure (failAt failureGraph "B")) ["C"] () 2).map BFState.calls
        = some ["C", "D"] ∧
      (breadthFirst (liftPure (failAt failureGraph "B")) ["C"] () 2).map
        (fun st => st.calls.count "B") = some 0 := by
  constructor <;> decide

/-- C9 (amended): with `f'` equal to `f` except that `f'(b) = []`, every item
reachable from the seeds through `f'` is called exactly once, in the run prefixes
from some round on and in every completed run (so `b` too when `b` is reachable);
an unreachable `b` is never called; every call on `b` returns `[]`, so `b` adds
nothing to the worklist.  In the scenario, `C` and `D` are visited after the failure
at `B`. -/
theorem breadthFirst_failure_isolation (g : String → List String) (seeds : List String)
    (b : String) :
    (∀ x, Reachable (failAt g b) seeds x → ∃ k, ∀ m, k < m →
      (stateAfter (liftPure (failAt g b)) seeds () m).calls.count x = 1) ∧
    (∀ fuel st, breadthFirst (liftPure (failAt g b)) seeds () fuel = some st →
      ∀ x, Reachable (failAt g b) seeds x → st.calls.count x = 1) ∧
    (¬ Reachable (failAt g b) seeds b →
      ∀ n, b ∉ (stateAfter (liftPure (failAt g b)) seeds () n).calls) ∧
    (∀ n e, e ∈ (stateAfter (liftPure (failAt g b)) seeds () n).trace →
      e.1 = b → e.2 = []) ∧
    (breadthFirst (liftPure (failAt failureGraph "B")) ["A"] () 3).map BFState.calls
      = some ["A", "B", "C", "D"] := by
  refine ⟨reachable_called (failAt g b) seeds, ?_, ?_, ?_, by decide⟩
  · intro fuel st h x hx
    exact final_calls_count (failAt g b) seeds fuel st h x hx
  · intro hb n hmem
    exact hb (calls_reachable (failAt g b) seeds n b hmem)
  · intro n e he hb
    obtain ⟨env1, h1⟩ := stateAfter_trace_results _ seeds () n e he
    rw [h1]
    simp [liftPure, failAt, hb]

/-- Witness for C9 (amended): the scenario with seeds `[A]` and the failure at `B`;
`D` is reachable through `C` and is called once in the completed run. -/
theorem breadthFirst_failure_isolation_witness :
    Reachable (failAt failureGraph "B") ["A"] "D" ∧
      (stateAfter (liftPure (failAt failureGraph "B")) ["A"] () 3).calls.count "D" = 1 :=
  have hr : Reachable (failAt failureGraph "B") ["A"] "D" :=
    Reachable.step (y := "C")
      (Reachable.step (y := "A") (Reachable.seed (by decide)) (by decide)) (by decide)
  ⟨hr, (breadthFirst_failure_isolation failureGraph ["A"] "B").2.1 3 _ rfl "D" hr⟩

/-- C10, as stated, fails: when the extraction returns a non-empty list together
with its error, `crawl` logs the error and returns that list, not an empty one. -/
theorem crawl_returns_list_on_error :
    (failingExtract "http://u").2 = some "boom" ∧
      (crawl failingExtract "http://u" ⟨[], []⟩).1 = ["http://x"] ∧
      (crawl failingExtract "http://u" ⟨[], []⟩).2.log = ["boom"] := by
  refine ⟨rfl, rfl, rfl⟩

/-- C10 (amended): when the extraction fails with error `e` and list `list`, `crawl`
prints the URL, reports `e` to the log, and returns `list` itself; the result is
empty exactly when `list` is empty. -/
theorem crawl_on_error (Extract : String → List String × Option String) (url : String)
    (out : Output) (list : List String) (e : String)
    (h : Extract url = (list, some e)) :
    (crawl Extract url out).1 = list ∧
    (crawl Extract url out).2.log = out.log ++ [e] ∧
    (crawl Extract url out).2.stdout = out.stdout ++ [url] ∧
    ((crawl Extract url out).1 = [] ↔ list = []) := by
  simp [crawl, h]

/-- Witness for C10 (amended): an extraction that fails with a nil list. -/
theorem crawl_on_error_witness :
    nilExtract "http://u" = ([], some "boom") ∧
      (crawl nilExtract "http://u" ⟨[], []⟩).1 = [] ∧
      (crawl nilExtract "http://u" ⟨[], []⟩).2.log = [] ++ ["boom"] :=
  have h := crawl_on_error nilExtract "http://u" ⟨[], []⟩ [] "boom" rfl
  ⟨rfl, h.1, h.2.1⟩

/-- C11, as stated, fails: in the example scenario the batch at the start of the
third round is `[A, D]`, and `A` is in `seen` and was called in the first round. -/
theorem batch_meets_seen :
    (stateAfter (liftPure exampleGraph) ["A"] () 2).worklist = ["A", "D"] ∧
      (stateAfter (liftPure exampleGraph) ["A"] () 2).seen "A" = true ∧
      (stateAfter (liftPure exampleGraph) ["A"] () 2).calls = ["A", "B", "C"] := by
  refine ⟨by decide, by decide, by decide⟩

/-- C11 (amended): the items that a round dispatches are disjoint from `seen` as it
is at the start of the round, so none of them was passed to `f` in a prior round; an
item of the batch that is in `seen` is not dispatched; and at the start of the first
round the batch and `seen` are disjoint. -/
theorem dispatched_not_seen {σ : Type} (f : Discover σ) (seeds : List String) (env : σ)
    (n : Nat) :
    (∀ x, x ∈ dispatched f seeds env n →
      (stateAfter f seeds env n).seen x = false ∧ x ∉ (stateAfter f seeds env n).calls) ∧
    (∀ x, x ∈ (stateAfter f seeds env n).worklist →
      (stateAfter f seeds env n).seen x = true → x ∉ dispatched f seeds env n) ∧
    (∀ x, x ∈ (stateAfter f seeds env 0).worklist →
      (stateAfter f seeds env 0).seen x = false) := by
  have key : ∀ x, x ∈ dispatched f seeds env n →
      (stateAfter f seeds env n).seen x = false := by
    intro x hx
    rw [dispatched_eq, mem_dedupFirst, List.mem_filter] at hx
    simpa using hx.2
  refine ⟨?_, ?_, ?_⟩
  · intro x hx
    refine ⟨key x hx, ?_⟩
    intro hc
    have := ((stateAfter_seenExact f seeds env n).2 x).2 hc
    rw [key x hx] at this
    exact Bool.false_ne_true this
  · intro x _ hs hx
    rw [key x hx] at hs
    exact Bool.false_ne_true hs
  · intro x _
    rfl

/-- C16: the next batch a round produces is the concatenation, in call order, of the
results of the calls made in the round, with nothing filtered out: for a discovery
function without effects it is `f` mapped over the newly dispatched items and
concatenated.  Items already seen (`A` in the example scenario) and repeated or
self-returned items (`selfLoopGraph`) are appended all the same. -/
theorem round_next_batch {σ : Type} (f : Discover σ) (st : BFState σ)
    (g : String → List String) (su : BFState Unit) :
    (∃ d : List (String × List String),
      (round f st).trace = st.trace ++ d ∧
      d.map Prod.fst = dedupFirst (st.worklist.filter (fun x => !st.seen x)) ∧
      (round f st).worklist = d.flatMap Prod.snd) ∧
    (round (liftPure g) su).worklist =
      (dedupFirst (su.worklist.filter (fun x => !su.seen x))).flatMap g ∧
    (stateAfter (liftPure exampleGraph) ["A"] () 2).worklist = ["A", "D"] ∧
    (stateAfter (liftPure selfLoopGraph) ["A"] () 1).worklist = ["A", "A"] := by
  refine ⟨?_, round_worklist_pure g su, by decide, by decide⟩
  obtain ⟨d, h1, h2, h3, _⟩ := round_full f st
  exact ⟨d, h1, h3, h2⟩

/-- C17: at every round boundary `seen` holds exactly the items on which `f` has
been invoked so far; it is empty at the start; and an item in `seen` is still in
`seen` one round later. -/
theorem seen_exact_monotone {σ : Type} (f : Discover σ) (seeds : List String) (env : σ)
    (n : Nat) (y : String) :
    ((stateAfter f seeds env n).seen y = true ↔ y ∈ (stateAfter f seeds env n).calls) ∧
    (stateAfter f seeds env 0).seen y = false ∧
    ((stateAfter f seeds env n).seen y = true →
      (stateAfter f seeds env (n + 1)).seen y = true) := by
  refine ⟨(stateAfter_seenExact f seeds env n).2 y, rfl, ?_⟩
  intro h
  rw [stateAfter_succ, round_seen, h]
  rfl

/-- C18: after any number of rounds, the argument of every call in the trace is a
seed or an element of the result of a call recorded earlier in the trace; and for a
discovery function without effects every item called is reachable from the seeds. -/
theorem calls_justified {σ : Type} (f : Discover σ) (seeds : List String) (env : σ)
    (g : String → List String) (n : Nat) :
    (∀ (i : Nat) (e : String × List String),
      (stateAfter f seeds env n).trace[i]? = some e →
      e.1 ∈ seeds ∨ ∃ (j : Nat) (e1 : String × List String), j < i ∧
        (stateAfter f seeds env n).trace[j]? = some e1 ∧ e.1 ∈ e1.2) ∧
    (∀ x, x ∈ (stateAfter (liftPure g) seeds () n).calls → Reachable g seeds x) :=
  ⟨(stateAfter_justified f seeds env n).2, calls_reachable g seeds n⟩

/-- C19: a round in which every item of the batch is already in `seen` makes no
call and leaves an empty next batch, so the loop exits after it; a round that is
followed by another one dispatches at least one item; and a run that takes exactly
`n` rounds has dispatched at least `n - 1` items. -/
theorem rounds_bound {σ : Type} (f : Discover σ) (seeds : List String) (env : σ) :
    (∀ st : BFState σ, (∀ x, x ∈ st.worklist → st.seen x = true) →
      (round f st).worklist = [] ∧ (round f st).trace = st.trace ∧
      ∀ fuel, breadthFirstLoop f fuel (round f st) = some (round f st)) ∧
    (∀ r, (stateAfter f seeds env (r + 1)).worklist ≠ [] →
      dispatched f seeds env r ≠ []) ∧
    (∀ n st, breadthFirst f seeds env n = some st →
      (∀ m, m < n → breadthFirst f seeds env m = none) →
      n ≤ st.calls.length + 1 ∧ st.calls.Nodup) := by
  refine ⟨?_, ?_, ?_⟩
  · intro st hst
    have hnil : dedupFirst (st.worklist.filter (fun x => !st.seen x)) = [] := by
      rw [dedupFirst_eq_nil, List.filter_eq_nil_iff]
      intro x hx
      simp [hst x hx]
    obtain ⟨hw, ht⟩ := round_worklist_of_no_call f st hnil
    refine ⟨hw, ht, ?_⟩
    intro fuel
    cases fuel <;> simp [breadthFirstLoop, hw]
  · intro r hr hd
    exact hr (stateAfter_worklist_of_dispatched_nil f seeds env r hd)
  · intro n st hst hmin
    obtain ⟨h1, _⟩ := breadthFirst_eq_some f seeds env n st hst
    subst h1
    refine ⟨?_, (stateAfter_seenExact f seeds env n).1⟩
    cases n with
    | zero => exact Nat.zero_le _
    | succ k =>
      have hk := breadthFirst_eq_none f seeds env k (hmin k (Nat.lt_succ_self k))
      have hge := calls_length_ge f seeds env k (fun r hr hd => by
        have hr1 : (stateAfter f seeds env (r + 1)).worklist ≠ [] := by
          apply stateAfter_worklist_ne_nil f seeds env (r + 1) (k - (r + 1))
          have : r + 1 + (k - (r + 1)) = k := by omega
          rw [this]
          exact hk
        exact hr1 (stateAfter_worklist_of_dispatched_nil f seeds env r hd))
      rw [stateAfter_calls_succ, List.length_append]
      omega

/-- C13: for a closure `g` just returned by `squares()`, whatever the heap, the
`k`-th call of `g` (`k ≥ 1`) returns `k * k` in Go `int` arithmetic, and returns the
exact square when `k * k` fits in a signed 64-bit `int`. -/
theorem squares_kth_call (h : Heap) (k : Nat) (hk : 1 ≤ k) :
    ((runCalls (List.replicate k (squares h).1) (squares h).2).map Prod.snd)[k - 1]? =
        some (wrapInt ((k : Int) * (k : Int))) ∧
      ((k : Int) * (k : Int) ≤ maxInt →
        ((runCalls (List.replicate k (squares h).1) (squares h).2).map Prod.snd)[k - 1]? =
          some ((k : Int) * (k : Int))) := by
  have hres := runCalls_replicate (squares h).1 k (squares h).2 (squares_fresh h).1
    (squares_fresh h).2
  have hk1 : k - 1 + 1 = k := by omega
  have h1 : ((runCalls (List.replicate k (squares h).1) (squares h).2).map Prod.snd)[k - 1]? =
      some (wrapInt ((k : Int) * (k : Int))) := by
    rw [hres, List.getElem?_map, List.getElem?_range (by omega)]
    simp only [Option.map_some', hk1]
  refine ⟨h1, fun hle => ?_⟩
  rw [h1, wrapInt_of_lt _ (by positivity) (by unfold maxInt at hle; omega)]

/-- Witness for C13: four calls of a fresh closure; the fourth returns 16 and the
four results are 1, 4, 9, 16. -/
theorem squares_kth_call_witness :
    1 ≤ 4 ∧ ((runCalls (List.replicate 4 (squares []).1) (squares []).2).map Prod.snd)[4 - 1]? =
        some (wrapInt ((4 : Nat) * (4 : Nat))) ∧ wrapInt ((4 : Nat) * (4 : Nat)) = 16 ∧
      (runCalls (List.replicate 4 (squares []).1) (squares []).2).map Prod.snd = [1, 4, 9, 16] :=
  ⟨by decide, (squares_kth_call [] 4 (by decide)).1, by with_unfolding_all decide,
    by with_unfolding_all decide⟩

/-- C14: two closures `f1` and `f2` from separate calls of `squares()` count
separately: in every interleaving of calls (`true` for `f1`, `false` for `f2`) the
results of the calls of `f1`, in order, are `1, 4, 9, ...` (the `k`-th is `k * k` in
Go `int` arithmetic) however many calls of `f2` come in between, and likewise for
`f2`; `main` prints 1, 4, 9, 1, 4, 9, 16, 16. -/
theorem squares_independent (h : Heap) (sched : List Bool) :
    (((runCalls (sched.map (fun s => if s = true then (squares h).1 else
          (squares (squares h).2).1)) (squares (squares h).2).2).filter
        (fun r => decide (r.1 = (squares h).1))).map Prod.snd =
      (List.range (sched.count true)).map
        (fun i => wrapInt (((i + 1 : Nat) : Int) * ((i + 1 : Nat) : Int)))) ∧
    (((runCalls (sched.map (fun s => if s = true then (squares h).1 else
          (squares (squares h).2).1)) (squares (squares h).2).2).filter
        (fun r => decide (r.1 = (squares (squares h).2).1))).map Prod.snd =
      (List.range (sched.count false)).map
        (fun i => wrapInt (((i + 1 : Nat) : Int) * ((i + 1 : Nat) : Int)))) ∧
    squaresMain = [1, 4, 9, 1, 4, 9, 16, 16] := by
  obtain ⟨ha1, ha2, hb1, hb2, hab⟩ := squares_two h
  obtain ⟨hc1, hc2⟩ := count_sched _ _ hab sched
  have h1 := runCalls_filter (squares h).1
    (sched.map (fun s => if s = true then (squares h).1 else (squares (squares h).2).1))
    (squares (squares h).2).2 0 ha1 (by simpa [wrapInt_zero] using ha2)
  have h2 := runCalls_filter (squares (squares h).2).1
    (sched.map (fun s => if s = true then (squares h).1 else (squares (squares h).2).1))
    (squares (squares h).2).2 0 hb1 (by simpa [wrapInt_zero] using hb2)
  rw [hc1] at h1
  rw [hc2] at h2
  refine ⟨?_, ?_, by with_unfolding_all decide⟩
  · rw [h1]
    apply List.map_congr_left
    intro i _
    rw [Nat.zero_add]
  · rw [h2]
    apply List.map_congr_left
    intro i _
    rw [Nat.zero_add]

/-- C12: with both callbacks non-nil, `forEachNode(n, pre, post)` returns, and the
calls `ev` it makes are such that: the calls of `pre` are the preorder of the tree
and the calls of `post` its postorder, so each node gets one call of each (the two
orders list the same nodes); for every node `x`, the calls on the descendants of `x`
lie between `pre(x)` and `post(x)`; and whatever the callbacks do, the run is these
calls made in this order. -/
theorem forEachNode_order (n : Node) :
    ∃ ev : List Event,
      forEachNode (some recPre) (some recPost) n [] = some ev ∧
      ev.filterMap Event.preOf = preorder n ∧
      ev.filterMap Event.postOf = postorder n ∧
      (preorder n).Perm (postorder n) ∧
      (∀ x, x ∈ preorder n → ∃ a mid b,
        ev = a ++ Event.pre x :: (mid ++ Event.post x :: b) ∧
        mid.filterMap Event.preOf = preorderList x.children ∧
        mid.filterMap Event.postOf = postorderList x.children) ∧
      (∀ (σ : Type) (p q : Node → σ → σ) (s : σ),
        forEachNode (some p) (some q) n s =
          some (ev.foldl (applyEvent (some p) (some q)) s)) ∧
      (forEachNode (some recPre) (some recPost) sampleTree []).map
          (fun l => (l.filterMap Event.preOf).map Node.Data)
        = some ["html", "head", "body", "p"] ∧
      (forEachNode (some recPre) (some recPost) sampleTree []).map
          (fun l => (l.filterMap Event.postOf).map Node.Data)
        = some ["head", "p", "body", "html"] := by
  refine ⟨walk n, ?_, walk_preOf n, walk_postOf n, preorder_perm n, ?_, ?_,
    by decide, by decide⟩
  · rw [forEachNode_replay]
    have := foldl_record true true (walk n) []
    simp only [if_true, List.nil_append] at this
    rw [this]
    congr 1
    apply List.filter_eq_self.2
    intro e _
    cases e <;> rfl
  · intro x hx
    obtain ⟨a, b, hab⟩ := walk_infix n x hx
    refine ⟨a, walkList x.children, b, ?_, walkList_preOf _, walkList_postOf _⟩
    rw [hab, walk_children x]
    simp
  · intro σ p q s
    exact forEachNode_replay (some p) (some q) n s

/-- C15: both callbacks are optional.  With `ev` the calls of the run with both
callbacks, a nil `pre` leaves exactly the `post` calls of `ev`, a nil `post` exactly
the `pre` calls, and with both nil nothing is called and the state is unchanged; no
choice of callbacks, nil or not, makes `forEachNode` panic. -/
theorem forEachNode_optional (n : Node) :
    ∃ ev : List Event,
      forEachNode (some recPre) (some recPost) n [] = some ev ∧
      forEachNode none (some recPost) n [] = some (ev.filter Event.isPost) ∧
      forEachNode (some recPre) none n [] = some (ev.filter Event.isPre) ∧
      forEachNode none none n ([] : List Event) = some [] ∧
      (∀ (σ : Type) (q : Node → σ → σ) (s : σ),
        forEachNode none (some q) n s =
          some ((ev.filterMap Event.postOf).foldl (fun s x => q x s) s)) ∧
      (∀ (σ : Type) (p : Node → σ → σ) (s : σ),
        forEachNode (some p) none n s =
          some ((ev.filterMap Event.preOf).foldl (fun s x => p x s) s)) ∧
      (∀ (σ : Type) (s : σ), forEachNode (none : Callback σ) none n s = some s) ∧
      (∀ (σ : Type) (pre post : Callback σ) (s : σ),
        ∃ s1, forEachNode pre post n s = some s1) := by
  refine ⟨walk n, ?_, ?_, ?_, ?_, ?_, ?_, ?_, ?_⟩
  · rw [forEachNode_replay]
    have := foldl_record true true (walk n) []
    simp only [if_true, List.nil_append] at this
    rw [this]
    congr 1
    apply List.filter_eq_self.2
    intro e _
    cases e <;> rfl
  · rw [forEachNode_replay]
    have := foldl_record false true (walk n) []
    simp only [if_true, Bool.false_eq_true, if_false, List.nil_append] at this
    rw [this]
    rfl
  · rw [forEachNode_replay]
    have := foldl_record true false (walk n) []
    simp only [if_true, Bool.false_eq_true, if_false, List.nil_append] at this
    rw [this]
    rfl
  · rw [forEachNode_replay, walk_foldl_none]
  · intro σ q s
    rw [forEachNode_replay, walk_foldl_post]
  · intro σ p s
    rw [forEachNode_replay, walk_foldl_pre]
  · intro σ s
    rw [forEachNode_replay, walk_foldl_none]
  · intro σ pre post s
    exact ⟨_, forEachNode_replay pre post n s⟩

end Gopl
